import Mathlib

/-!
# Verification of `poisson_tools.py` (images-to-spikes)

Shallow embedding of the two core subsystems of `src/poisson_tools.py`:

* the AER binary codec `aerfile_to_spike` / `spike_to_aerfile`, modelled over
  exact rationals (`ℚ`) for millisecond spike times and `ℕ` for the unsigned
  32-bit words of the file format, with `% 2 ^ 32` made explicit wherever the
  Python code relies on `numpy.uint32` wraparound;
* the Poisson spike-train generator `nextTime` / `poisson_generator` /
  `image_to_poisson_trains`, modelled over `ℝ` (the Python code computes with
  real-valued transcendental functions: `math.log`), with the implicit global
  stream of `random.random()` draws made an explicit argument `us : ℕ → ℝ`
  (each draw lies in `[0,1)`), and the unbounded `while` loop given explicit
  fuel (the Python loop runs one iteration per appended spike, so every finite
  run of the Python loop is a run of the fuelled loop for large enough fuel,
  and the properties proved below hold for every fuel).

File I/O conventions: `aerfile_to_spike` takes `Option (List (ℕ × ℕ))` —
`none` models a missing file (the `os.path.exists` false branch), and
`some events` models an existing file whose 5 header lines have been skipped
and whose remaining big-endian u32 words have been read pairwise as
(address, timestamp) pairs.  `spike_to_aerfile` returns an `EncodeOutput`
recording both what was written to the output file (`none` when the code
never opens the file) and the Python return value (`none` models the bare
`[]` returned instead of the `(AllTs, neuron_id, Polarity)` triple).
-/

/-! ## AER decode (`aerfile_to_spike`, lines 143-186) -/

/-- `pol = AllAddr & polmask` with `polmask = 1`: the polarity bit is the LSB
(0 = ON, 1 = OFF). -/
def polBit (addr : ℕ) : ℕ := addr &&& 1

/-- `AllAddr = AllAddr + pol` performed on `numpy.uint32`, hence the explicit
wraparound modulo `2 ^ 32`. -/
def adjAddr (addr : ℕ) : ℕ := (addr + polBit addr) % 2 ^ 32

/-- `x = (AllAddr & xmask) >> xshift` with `xmask = 254 = 0xFE`, `xshift = 1`,
applied after the `AllAddr += pol` adjustment. -/
def xCoord (addr : ℕ) : ℕ := (adjAddr addr &&& 254) >>> 1

/-- `y = (AllAddr & ymask) >> yshift` with `ymask = 32512 = 0x7F00`,
`yshift = 8`, applied after the `AllAddr += pol` adjustment. -/
def yCoord (addr : ℕ) : ℕ := (adjAddr addr &&& 32512) >>> 8

/-- `neuron_id = y * image_size + x`. -/
def neuronId (image_size addr : ℕ) : ℕ :=
  yCoord addr * image_size + xCoord addr

/-- `AllTs = AllTs.astype(float) / 1000.`: microsecond timestamps become
millisecond spike times, keeping the fractional part (exact in `ℚ`). -/
def tsMs (t : ℕ) : ℚ := (t : ℚ) / 1000

/-- Core of `aerfile_to_spike` on an existing file: for each neuron id
`i < image_size * image_size`, the ON (resp. OFF) train collects, in file
order, the millisecond timestamps of the events whose decoded `neuron_id`
is `i` and whose polarity bit is 0 (resp. 1).  This is the
`np.where(neuron_id == i)` / `np.where(pol[...] == b)` grouping loop of
lines 174-183; events whose `neuron_id` falls outside `[0, image_size^2)`
match no iteration of the loop and are dropped. -/
def aerfile_to_spike (events : List (ℕ × ℕ)) (image_size : ℕ) :
    List (List ℚ) × List (List ℚ) :=
  ((List.range (image_size * image_size)).map (fun i =>
      (events.filter (fun e =>
        decide (neuronId image_size e.1 = i ∧ polBit e.1 = 0))).map
          (fun e => tsMs e.2)),
   (List.range (image_size * image_size)).map (fun i =>
      (events.filter (fun e =>
        decide (neuronId image_size e.1 = i ∧ polBit e.1 = 1))).map
          (fun e => tsMs e.2)))

/-- `aerfile_to_spike` including the `os.path.exists` test: a missing file
(`none`) returns the pair of bare empty lists of the `else` branch
(line 186). -/
def aerfile_to_spike_file (file : Option (List (ℕ × ℕ))) (image_size : ℕ) :
    List (List ℚ) × List (List ℚ) :=
  match file with
  | some events => aerfile_to_spike events image_size
  | none => ([], [])

/-! ## AER encode (`spike_to_aerfile`, lines 190-265) -/

/-- The flattening loop `for i in range(num_neuron): time_stamp.extend(...);
neuron_id.extend([i]*len(spikes))`, tagging each spike time with its neuron
id; the counter starts at `k` (the loop itself uses `k = 0`).  The Python
guard `if spikes != []` is a no-op (extending by an empty list changes
nothing). -/
def flattenFrom (k : ℕ) : List (List ℚ) → List (ℚ × ℕ)
  | [] => []
  | spikes :: rest => spikes.map (fun t => (t, k)) ++ flattenFrom (k + 1) rest

/-- Flatten a SpikeTrainSet into (time, neuron id) pairs in neuron-id order. -/
def flattenTrains (trains : List (List ℚ)) : List (ℚ × ℕ) :=
  flattenFrom 0 trains

/-- One polarity's contribution to the combined event list: the flattening
loop runs only when the SpikeTrainSet has length exactly
`image_size * image_size` (the `len(...) == num_neuron` guards of lines 209
and 219); a length mismatch silently contributes nothing. -/
def validTrains (trains : List (List ℚ)) (image_size : ℕ) : List (ℚ × ℕ) :=
  if trains.length = image_size * image_size then flattenTrains trains else []

/-- The combined event list built by lines 203-228: ON events (polarity tag
`0`) for all neurons, then OFF events (polarity tag `-1`).  (The convoluted
`pol` bookkeeping of lines 216/225-228 always amounts to
`[0] * num_on ++ [-1] * num_off`.) -/
def encodeEvents (ons offs : List (List ℚ)) (image_size : ℕ) :
    List (ℚ × ℕ × ℤ) :=
  (validTrains ons image_size).map (fun e => (e.1, e.2, (0 : ℤ))) ++
  (validTrains offs image_size).map (fun e => (e.1, e.2, (-1 : ℤ)))

/-- The order in which `sorted(range(len(time_stamp)),
key=time_stamp.__getitem__)` arranges two indices: by timestamp, and (since
Python's `sorted` is guaranteed stable) ties between distinct indices stay in
index order.  A stable sort of the distinct indices `0, ..., len-1` by the
key `time_stamp[i]` produces exactly the unique permutation sorted by this
lexicographic (key, index) order, whatever sorting algorithm is used. -/
def sortKeyLe (ts : List ℚ) (i j : ℕ) : Prop :=
  ts.getD i 0 < ts.getD j 0 ∨ (ts.getD i 0 = ts.getD j 0 ∧ i ≤ j)

instance (ts : List ℚ) : DecidableRel (sortKeyLe ts) := fun i j => by
  unfold sortKeyLe; infer_instance

instance (ts : List ℚ) : IsTotal ℕ (sortKeyLe ts) := by
  constructor
  intro i j
  rcases lt_trichotomy (ts.getD i 0) (ts.getD j 0) with h | h | h
  · exact Or.inl (Or.inl h)
  · rcases Nat.le_total i j with h' | h'
    · exact Or.inl (Or.inr ⟨h, h'⟩)
    · exact Or.inr (Or.inr ⟨h.symm, h'⟩)
  · exact Or.inr (Or.inl h)

instance (ts : List ℚ) : IsTrans ℕ (sortKeyLe ts) := by
  constructor
  intro i j k hij hjk
  rcases hij with h1 | ⟨h1, hi⟩
  · rcases hjk with h2 | ⟨h2, _⟩
    · exact Or.inl (h1.trans h2)
    · exact Or.inl (h2 ▸ h1)
  · rcases hjk with h2 | ⟨h2, hj⟩
    · exact Or.inl (h1 ▸ h2)
    · exact Or.inr ⟨h1.trans h2, hi.trans hj⟩

/-- `sort_index = sorted(range(len(time_stamp)), key=time_stamp.__getitem__)`
(line 231), modelled as a sort of `range` by the stable (key, index) order
`sortKeyLe`. -/
def sortIndex (ts : List ℚ) : List ℕ :=
  List.insertionSort (sortKeyLe ts) (List.range ts.length)

/-- The combined event list rearranged by `sort_index`: this is the order in
which lines 232-239 emit `AllTs`, `neuron_id` and `Polarity`. -/
def sortedEvents (ons offs : List (List ℚ)) (image_size : ℕ) :
    List (ℚ × ℕ × ℤ) :=
  let flat := encodeEvents ons offs image_size
  (sortIndex (flat.map (fun e => e.1))).map (fun i => flat.getD i (0, 0, 0))

/-- `np.uint32` cast of an integer quantity. -/
def toU32 (z : ℤ) : ℕ := (z % 2 ^ 32).toNat

/-- `np.uint32(np.ceil(t * 1000.))` — milliseconds to microseconds with
ceiling rounding, truncated to u32 (line 232). -/
def ceilMicro (t : ℚ) : ℕ := toU32 ⌈t * 1000⌉

/-- `AllAddr = np.uint32((x << 1) + (y << 1) * jaer_size + Polarity)` with
`x = neuron_id % image_size`, `y = neuron_id / image_size` (lines 237-239);
the OFF polarity `-1` makes this wrap around on `numpy.uint32`. -/
def packAddr (image_size jaer_size : ℕ) (nid : ℕ) (p : ℤ) : ℕ :=
  toU32 (((nid % image_size <<< 1 : ℕ) : ℤ) +
    ((nid / image_size <<< 1 : ℕ) : ℤ) * (jaer_size : ℤ) + p)

/-- The six strings written to the output file before the binary event data
(lines 248-253); the first two concatenate into the single header line
`#!AER-DAT2.0`, so five physical lines precede the data.  `now` stands for
`datetime.datetime.now()`. -/
def headerWrites (now : String) : List String :=
  ["#!AER-DAT", "2.0" ++ "\r\n",
   "# This is a raw AE data file - do not edit" ++ "\r\n",
   "# Data format is int32 address, int32 timestamp (8 bytes total), repeated for each event" ++ "\r\n",
   "# Timestamps tick is 1 us" ++ "\r\n",
   "# Created " ++ now ++ "\r\n"]

/-- What a call to `spike_to_aerfile` does: `file` records the content written
to `file_name` — `none` when the function never opens the file (the
`len(time_stamp) > 0` test fails), otherwise the header strings and the
interleaved (address, timestamp) u32 pairs; `ret` records the Python return
value — `none` models the bare `[]` of line 265, `some` the
`(AllTs, neuron_id, Polarity)` triple of line 262. -/
structure EncodeOutput where
  file : Option (List String × List (ℕ × ℕ))
  ret : Option (List ℕ × List ℕ × List ℤ)

/-- `spike_to_aerfile` (lines 190-265): flatten both polarities, stable-sort
by timestamp, convert times to u32 microseconds and neuron ids to packed u32
addresses, and either write header plus events and return the triple, or —
when there are no events at all — write nothing and return the empty
indicator. -/
def spike_to_aerfile (ons offs : List (List ℚ)) (image_size jaer_size : ℕ)
    (now : String) : EncodeOutput :=
  let flat := encodeEvents ons offs image_size
  if 0 < flat.length then
    let sorted := sortedEvents ons offs image_size
    let allTs := sorted.map (fun e => ceilMicro e.1)
    let nids := sorted.map (fun e => e.2.1)
    let pols := sorted.map (fun e => e.2.2)
    let addrs := sorted.map (fun e => packAddr image_size jaer_size e.2.1 e.2.2)
    { file := some (headerWrites now, addrs.zip allTs),
      ret := some (allTs, nids, pols) }
  else
    { file := none, ret := none }

/-- The (timestamp-µs, neuron id, polarity) triples emitted by an encode
call, read off its returned triple; the empty-indicator return carries no
triples. -/
def emittedTriples (o : EncodeOutput) : List (ℕ × ℕ × ℤ) :=
  match o.ret with
  | none => []
  | some (ts, ids, ps) => ts.zip (ids.zip ps)

/-! ## Poisson spike-train generation (`nextTime`, `poisson_generator`,
`image_to_poisson_trains`, lines 81-140) -/

/-- `nextTime(rateParameter) = -math.log(1.0 - random.random()) / rateParameter`
(line 87), with the uniform draw `u ∈ [0,1)` made explicit. -/
noncomputable def nextTime (rateParameter : ℝ) (u : ℝ) : ℝ :=
  -Real.log (1.0 - u) / rateParameter

/-- The `while last_time < t_stop` loop of lines 103-106, with explicit fuel
and with `us k` the draw consumed by the `nextTime` call of iteration `k`
(the initial `nextTime` call of line 101 consumes `us 0`, so the loop starts
at `k = 1`). -/
noncomputable def poissonLoop (rate t_stop : ℝ) (us : ℕ → ℝ) :
    ℕ → ℕ → ℝ → List ℝ
  | 0, _, _ => []
  | fuel + 1, k, last_time =>
    if last_time < t_stop then
      last_time ::
        poissonLoop rate t_stop us fuel (k + 1)
          (last_time + nextTime rate (us k) * 1000)
    else []

/-- `poisson_generator(rate, t_start, t_stop)` (lines 91-107): when
`rate > 0`, seed `last_time = nextTime(rate)*1000 + t_start` and run the
appending loop; otherwise return the empty train without sampling. -/
noncomputable def poisson_generator (rate t_start t_stop : ℝ) (us : ℕ → ℝ)
    (fuel : ℕ) : List ℝ :=
  if 0 < rate then
    poissonLoop rate t_stop us fuel 1 (nextTime rate (us 0) * 1000 + t_start)
  else []

/-- `image_to_poisson_trains` (lines 110-140).  The first component is the
final state of the caller's `image_list` argument: when `max_freq > 0` each
row `i` is overwritten in place with `image_list[i]/sum(image_list[i])*max_freq`
(line 128) before any spike generation, otherwise the array is untouched.
The second component is `spike_source_data`: neuron `j` accumulates, image by
image, the train generated from the (possibly normalized) rate
`image_list[i][j]` on the window
`[i*(duration+silence), i*(duration+silence)+duration)`; the
`if spikes != []` guard of line 137 is a no-op for `extend`.  The single
global `random.random()` stream is modelled as one independent draw stream
`us i j` per generator call (the order in which the Python code interleaves
one global stream across calls does not affect any property proved here). -/
noncomputable def image_to_poisson_trains (image_list : List (List ℝ))
    (image_height image_width : ℕ) (max_freq duration silence : ℝ)
    (us : ℕ → ℕ → ℕ → ℝ) (fuel : ℕ) :
    List (List ℝ) × List (List ℝ) :=
  let normalized :=
    if 0 < max_freq then
      image_list.map (fun row => row.map (fun p => p / row.sum * max_freq))
    else image_list
  let trains := (List.range (image_height * image_width)).map (fun j =>
    ((List.range normalized.length).map (fun i =>
      poisson_generator ((normalized.getD i []).getD j 0)
        ((i : ℝ) * (duration + silence))
        ((i : ℝ) * (duration + silence) + duration) (us i j) fuel)).flatten)
  (normalized, trains)

/-! ## Helper lemmas -/

/-- Masking with a constant below `2 ^ 32` commutes with the `numpy.uint32`
wraparound: the wraparound only clears bits at positions `≥ 32`, which the
mask does not inspect. -/
theorem and_mod_two_pow_32 (x m : ℕ) (hm : m < 2 ^ 32) :
    x % 2 ^ 32 &&& m = x &&& m := by
  apply Nat.eq_of_testBit_eq
  intro i
  rw [Nat.testBit_and, Nat.testBit_and, Nat.testBit_mod_two_pow]
  by_cases hi : i < 32
  · simp [hi]
  · have hmi : m.testBit i = false :=
      Nat.testBit_lt_two_pow
        (lt_of_lt_of_le hm (Nat.pow_le_pow_right (by norm_num) (le_of_not_lt hi)))
    simp [hmi, hi]

theorem xCoord_no_wrap (a : ℕ) :
    xCoord a = ((a + (a &&& 1)) &&& 254) >>> 1 := by
  unfold xCoord adjAddr polBit
  rw [and_mod_two_pow_32 _ _ (by norm_num)]

theorem yCoord_no_wrap (a : ℕ) :
    yCoord a = ((a + (a &&& 1)) &&& 32512) >>> 8 := by
  unfold yCoord adjAddr polBit
  rw [and_mod_two_pow_32 _ _ (by norm_num)]

/-- Claim C4: decoding computes `polarity_bit = address & 1` (0 = ON,
1 = OFF), adds the polarity bit to the address before extracting
coordinates, extracts `x = ((address + polarity_bit) & 0xFE) >> 1` and
`y = ((address + polarity_bit) & 0x7F00) >> 8`, groups by
`neuron_id = y * image_size + x`, and converts each microsecond timestamp
to milliseconds by an exact division by 1000 that keeps the fractional
part.  Stated by rewriting both spike-train sets of `aerfile_to_spike`
with the claim's mask formulas (which carry no `uint32` wraparound — the
wraparound in the code is invisible to the 0xFE/0x7F00 masks). -/
theorem C4_decode_formulas (events : List (ℕ × ℕ)) (n : ℕ) :
    (aerfile_to_spike events n).1 =
      (List.range (n * n)).map (fun i =>
        (events.filter (fun e =>
          decide ((((e.1 + (e.1 &&& 1)) &&& 32512) >>> 8) * n +
              (((e.1 + (e.1 &&& 1)) &&& 254) >>> 1) = i ∧ e.1 &&& 1 = 0))).map
            (fun e => (e.2 : ℚ) / 1000)) ∧
    (aerfile_to_spike events n).2 =
      (List.range (n * n)).map (fun i =>
        (events.filter (fun e =>
          decide ((((e.1 + (e.1 &&& 1)) &&& 32512) >>> 8) * n +
              (((e.1 + (e.1 &&& 1)) &&& 254) >>> 1) = i ∧ e.1 &&& 1 = 1))).map
            (fun e => (e.2 : ℚ) / 1000)) := by
  constructor <;>
  · simp only [aerfile_to_spike]
    apply List.map_congr_left
    intro i _
    simp only [neuronId, polBit, tsMs, xCoord_no_wrap, yCoord_no_wrap]

/-- Claim C10: an event whose decoded `neuron_id` is at least
`image_size * image_size` is silently dropped by the decoder — removing all
such events from the input leaves the decoder's output unchanged (and the
decoder is a total function, so no error is ever raised). -/
theorem C10_out_of_range_dropped (events : List (ℕ × ℕ)) (n : ℕ) :
    aerfile_to_spike (events.filter (fun e => decide (neuronId n e.1 < n * n))) n =
      aerfile_to_spike events n := by
  unfold aerfile_to_spike
  refine Prod.ext ?_ ?_ <;>
  · simp only
    apply List.map_congr_left
    intro i hi
    rw [List.mem_range] at hi
    congr 1
    rw [List.filter_filter]
    apply List.filter_congr
    intro e _
    by_cases h : neuronId n e.1 = i
    · simp [h, hi]
    · simp [h]

/-- Claim C2 counterexample: when the input file does not exist, the decoder
returns two bare empty lists (the `else` branch of line 186), not two
SpikeTrainSets of length `image_size * image_size`: at `image_size = 2` the
first returned set has length `0 ≠ 2 * 2`. -/
theorem C2_counterexample :
    aerfile_to_spike_file none 2 = ([], []) ∧
    (aerfile_to_spike_file none 2).1.length ≠ 2 * 2 := by
  exact ⟨rfl, by decide⟩

/-- Claim C2, amended: for an existing file the decoder always returns two
SpikeTrainSets of length exactly `image_size * image_size` — in particular a
header-only file (zero events) yields two sets of that length in which every
train is empty — but for a missing file it returns two length-0 lists
(still a normal value, not an error). -/
theorem C2_lengths (events : List (ℕ × ℕ)) (n : ℕ) :
    (aerfile_to_spike_file (some events) n).1.length = n * n ∧
    (aerfile_to_spike_file (some events) n).2.length = n * n ∧
    aerfile_to_spike_file (some []) n =
      (List.replicate (n * n) [], List.replicate (n * n) []) ∧
    aerfile_to_spike_file none n = ([], []) := by
  refine ⟨?_, ?_, ?_, rfl⟩
  · simp [aerfile_to_spike_file, aerfile_to_spike]
  · simp [aerfile_to_spike_file, aerfile_to_spike]
  · simp [aerfile_to_spike_file, aerfile_to_spike, List.map_const']

/-- Claim C5 counterexample: encoding an empty event set (here: all trains
empty, `image_size = 2`) does not produce a header-only output buffer — the
code never opens the output file at all (`file = none`), so no header is
written. -/
theorem C5_counterexample :
    (spike_to_aerfile (List.replicate 4 []) (List.replicate 4 []) 2 128
      "now").file = none := by
  rfl

/-- Claim C5, amended: when the combined ON/OFF event set is empty the
encoder writes nothing at all — not even the textual header — and returns
the distinct empty-result indicator (`[]` instead of the
`(AllTs, neuron_id, Polarity)` triple); when the combined set is nonempty it
both writes the file and returns the triple, so callers can distinguish the
two cases from the return value. -/
theorem C5_empty_encode (ons offs : List (List ℚ)) (n jaer : ℕ)
    (now : String) :
    (encodeEvents ons offs n = [] →
      (spike_to_aerfile ons offs n jaer now).file = none ∧
      (spike_to_aerfile ons offs n jaer now).ret = none) ∧
    (encodeEvents ons offs n ≠ [] →
      (spike_to_aerfile ons offs n jaer now).file ≠ none ∧
      (spike_to_aerfile ons offs n jaer now).ret ≠ none) := by
  constructor
  · intro h
    simp [spike_to_aerfile, h]
  · intro h
    have hpos : 0 < (encodeEvents ons offs n).length :=
      List.length_pos.mpr h
    simp [spike_to_aerfile, hpos]

/-- Witness for `C5_empty_encode` at a concrete empty input. -/
theorem C5_empty_encode_witness :
    encodeEvents (List.replicate 4 []) (List.replicate 4 []) 2 = [] ∧
    (spike_to_aerfile (List.replicate 4 []) (List.replicate 4 []) 2 128
      "t").ret = none := by
  refine ⟨by decide, ?_⟩
  exact ((C5_empty_encode (List.replicate 4 []) (List.replicate 4 []) 2 128
    "t").1 (by decide)).2

/-- For `rate > 0` and a uniform draw `u ∈ [0,1)`, the sampled interval is
non-negative (it is zero exactly when `u = 0`). -/
theorem nextTime_nonneg (rate u : ℝ) (hrate : 0 < rate) (h0 : 0 ≤ u)
    (h1 : u < 1) : 0 ≤ nextTime rate u := by
  unfold nextTime
  have hlog : Real.log (1.0 - u) ≤ 0 :=
    Real.log_nonpos (by linarith) (by linarith)
  exact div_nonneg (by linarith) hrate.le

/-- For `rate > 0` and a uniform draw `u ∈ (0,1)`, the sampled interval is
strictly positive. -/
theorem nextTime_pos (rate u : ℝ) (hrate : 0 < rate) (h0 : 0 < u)
    (h1 : u < 1) : 0 < nextTime rate u := by
  unfold nextTime
  have hlog : Real.log (1.0 - u) < 0 :=
    Real.log_neg (by linarith) (by linarith)
  exact div_pos (by linarith) hrate

/-- Invariant of the appending loop: when every sampled interval is strictly
positive, the accumulated train is strictly increasing and every element
lies in `[last_time, t_stop)`. -/
theorem poissonLoop_invariant (rate t_stop : ℝ) (us : ℕ → ℝ)
    (hpos : ∀ n, 0 < nextTime rate (us n) * 1000) :
    ∀ fuel k last_time,
      List.Chain' (· < ·) (poissonLoop rate t_stop us fuel k last_time) ∧
      ∀ x ∈ poissonLoop rate t_stop us fuel k last_time,
        last_time ≤ x ∧ x < t_stop := by
  intro fuel
  induction fuel with
  | zero => intro k last_time; simp [poissonLoop]
  | succ fuel ih =>
    intro k last_time
    by_cases h : last_time < t_stop
    · have hrec := ih (k + 1) (last_time + nextTime rate (us k) * 1000)
      rw [poissonLoop, if_pos h]
      constructor
      · rw [List.chain'_cons']
        refine ⟨?_, hrec.1⟩
        intro y hy
        have hmem := hrec.2 y (List.mem_of_mem_head? hy)
        have := hpos k
        linarith [hmem.1]
      · intro x hx
        rcases List.mem_cons.mp hx with rfl | hx
        · exact ⟨le_refl _, h⟩
        · have hmem := hrec.2 x hx
          have := hpos k
          exact ⟨by linarith [hmem.1], hmem.2⟩
    · rw [poissonLoop, if_neg h]
      simp

/-- Claim C3, amended: for `rate > 0` and `t_start < t_stop` the generated
train is strictly increasing with every element in `[t_start, t_stop)`,
provided every uniform draw lies in the open interval `(0,1)`.  (The claim
as frozen allows draws in `[0,1)`; a draw of exactly `0` — which
`random.random()` can produce — makes `nextTime` return a zero interval and
the train repeats a spike time, see `C3_counterexample`.) -/
theorem C3_strictly_increasing (rate t_start t_stop : ℝ) (us : ℕ → ℝ)
    (fuel : ℕ) (hrate : 0 < rate) (_hw : t_start < t_stop)
    (hus : ∀ n, 0 < us n ∧ us n < 1) :
    List.Chain' (· < ·) (poisson_generator rate t_start t_stop us fuel) ∧
    ∀ x ∈ poisson_generator rate t_start t_stop us fuel,
      t_start ≤ x ∧ x < t_stop := by
  have hpos : ∀ n, 0 < nextTime rate (us n) * 1000 := fun n => by
    have := nextTime_pos rate (us n) hrate (hus n).1 (hus n).2
    linarith
  have hinv := poissonLoop_invariant rate t_stop us hpos fuel 1
    (nextTime rate (us 0) * 1000 + t_start)
  rw [poisson_generator, if_pos hrate]
  refine ⟨hinv.1, ?_⟩
  intro x hx
  have hmem := hinv.2 x hx
  have := hpos 0
  exact ⟨by linarith [hmem.1], hmem.2⟩

/-- Witness for `C3_strictly_increasing` at a concrete input. -/
theorem C3_strictly_increasing_witness :
    (0 : ℝ) < 1 ∧ (0 : ℝ) < 10 ∧
    (∀ n : ℕ, 0 < ((fun _ : ℕ => (1 : ℝ) / 2) n) ∧
      ((fun _ : ℕ => (1 : ℝ) / 2) n) < 1) ∧
    (List.Chain' (· < ·)
      (poisson_generator 1 0 10 (fun _ => 1 / 2) 3) ∧
    ∀ x ∈ poisson_generator 1 0 10 (fun _ => 1 / 2) 3,
      (0 : ℝ) ≤ x ∧ x < 10) := by
  refine ⟨by norm_num, by norm_num, fun n => by norm_num, ?_⟩
  exact C3_strictly_increasing 1 0 10 (fun _ => 1 / 2) 3 (by norm_num)
    (by norm_num) (fun n => by norm_num)

/-- Claim C3 counterexample: with the draws permitted by the claim
(`u ∈ [0,1)`, here `u = 0` throughout), `nextTime` returns a zero interval
and the generated train repeats `t_start`: the output `[0, 0]` is not
strictly increasing, although `rate = 1 > 0` and `t_start = 0 < 10 =
t_stop`. -/
theorem C3_counterexample :
    (0 : ℝ) < 1 ∧ (0 : ℝ) < 10 ∧
    (∀ n : ℕ, 0 ≤ ((fun _ : ℕ => (0 : ℝ)) n) ∧
      ((fun _ : ℕ => (0 : ℝ)) n) < 1) ∧
    ¬ List.Chain' (· < ·) (poisson_generator 1 0 10 (fun _ => 0) 2) := by
  have hnt : nextTime 1 (0 : ℝ) = 0 := by
    rw [nextTime]
    norm_num [Real.log_one]
  refine ⟨by norm_num, by norm_num, fun n => by norm_num, ?_⟩
  have : poisson_generator 1 0 10 (fun _ => 0) 2 = [0, 0] := by
    rw [poisson_generator, if_pos (by norm_num : (0 : ℝ) < 1)]
    rw [poissonLoop, if_pos (by rw [hnt]; norm_num : nextTime 1 (0:ℝ) * 1000 + 0 < 10)]
    rw [poissonLoop, if_pos (by rw [hnt]; norm_num)]
    rw [poissonLoop]
    rw [hnt]
    norm_num
  rw [this]
  simp only [List.chain'_cons, List.chain'_singleton, and_true]
  exact lt_irrefl 0

/-- Claim C7: the generator returns the empty train, deterministically and
as a normal value, whenever `rate ≤ 0` (the `rate > 0` guard fails and no
sampling is attempted, for any draw stream), and whenever
`t_stop ≤ t_start` (for any rate: the seeded `last_time` is at least
`t_start`, so the loop body never runs, given draws in `[0,1)`). -/
theorem C7_degenerate_empty (rate t_start t_stop : ℝ) (us : ℕ → ℝ)
    (fuel : ℕ) :
    (rate ≤ 0 → poisson_generator rate t_start t_stop us fuel = []) ∧
    ((∀ n, 0 ≤ us n ∧ us n < 1) → t_stop ≤ t_start →
      poisson_generator rate t_start t_stop us fuel = []) := by
  constructor
  · intro h
    rw [poisson_generator, if_neg (not_lt.mpr h)]
  · intro hus hw
    by_cases hrate : 0 < rate
    · rw [poisson_generator, if_pos hrate]
      have hnn := nextTime_nonneg rate (us 0) hrate (hus 0).1 (hus 0).2
      cases fuel with
      | zero => rw [poissonLoop]
      | succ fuel =>
        rw [poissonLoop, if_neg]
        intro hcontra
        nlinarith
    · rw [poisson_generator, if_neg hrate]

/-- Witness for `C7_degenerate_empty`: a negative rate, and a collapsed
window with a positive rate. -/
theorem C7_degenerate_empty_witness :
    ((-1 : ℝ) ≤ 0 ∧ poisson_generator (-1) 0 10 (fun _ => 1 / 2) 5 = []) ∧
    ((∀ n : ℕ, 0 ≤ ((fun _ : ℕ => (1 : ℝ) / 2) n) ∧
        ((fun _ : ℕ => (1 : ℝ) / 2) n) < 1) ∧ (3 : ℝ) ≤ 3 ∧
      poisson_generator 5 3 3 (fun _ => 1 / 2) 5 = []) := by
  refine ⟨⟨by norm_num, ?_⟩, fun n => by norm_num, by norm_num, ?_⟩
  · exact (C7_degenerate_empty (-1) 0 10 (fun _ => 1 / 2) 5).1 (by norm_num)
  · exact (C7_degenerate_empty 5 3 3 (fun _ => 1 / 2) 5).2
      (fun n => by norm_num) (by norm_num)

/-- Claim C9: when `max_freq > 0`, the caller's `image_list` is mutated in
place — after the call every row `i` holds
`image_list[i] / sum(image_list[i]) * max_freq` (firing rates, not the
original intensities), and the spike trains are generated from these
overwritten rows; when `max_freq ≤ 0` the array is left unchanged.  In the
embedding the first component of the result is the final state of the
caller's array. -/
theorem C9_mutates_image_list (image_list : List (List ℝ))
    (image_height image_width : ℕ) (max_freq duration silence : ℝ)
    (us : ℕ → ℕ → ℕ → ℝ) (fuel : ℕ) :
    (0 < max_freq →
      (image_to_poisson_trains image_list image_height image_width max_freq
        duration silence us fuel).1 =
        image_list.map (fun row => row.map (fun p => p / row.sum * max_freq))) ∧
    (max_freq ≤ 0 →
      (image_to_poisson_trains image_list image_height image_width max_freq
        duration silence us fuel).1 = image_list) := by
  constructor
  · intro hm
    simp [image_to_poisson_trains, if_pos hm]
  · intro hm
    simp [image_to_poisson_trains, if_neg (not_lt.mpr hm)]

/-- Witness for `C9_mutates_image_list`: a one-image, two-pixel input is
overwritten with its normalized rates `[50, 50]`. -/
theorem C9_mutates_image_list_witness :
    (0 : ℝ) < 100 ∧
    (image_to_poisson_trains [[1, 1]] 1 2 100 10 0 (fun _ _ _ => 1 / 2)
      3).1 = [[50, 50]] := by
  refine ⟨by norm_num, ?_⟩
  have h := (C9_mutates_image_list [[1, 1]] 1 2 100 10 0
    (fun _ _ _ => 1 / 2) 3).1 (by norm_num)
  rw [h]
  norm_num

/-- Claim C8 counterexample: for an image whose pixel sum is zero (here the
single-pixel image `[0]` with `max_freq = 100 > 0`), the normalization's
division by the zero sum is not detected: `image_to_poisson_trains` returns
an ordinary value — the overwritten image together with all-empty spike
trains — and reports no failure.  (In IEEE arithmetic the overwritten row
holds `0.0/0.0 = NaN`; like the model's division-by-zero value `0`, `NaN`
fails the generator's `rate > 0` guard, so the trains are empty either
way.) -/
theorem C8_counterexample :
    image_to_poisson_trains [[0]] 1 1 100 1000 0 (fun _ _ _ => 1 / 2) 3 =
      ([[0]], [[]]) := by
  norm_num [image_to_poisson_trains, poisson_generator, List.range_succ]

/-- Claim C8, amended: the zero-sum normalization is not checked.  For an
all-zero image (the only zero-sum case with the non-negative pixel
intensities of the data model) and `max_freq > 0`, the division is performed
regardless, every resulting rate fails the `rate > 0` guard (`NaN` in IEEE
arithmetic, `0` in the exact model), and the call returns normally with
every spike train empty — no failure is reported to the caller. -/
theorem C8_silent_zero_sum (image : List ℝ) (image_height image_width : ℕ)
    (max_freq duration silence : ℝ) (us : ℕ → ℕ → ℕ → ℝ) (fuel : ℕ)
    (hmf : 0 < max_freq) (hz : ∀ p ∈ image, p = 0) :
    (image_to_poisson_trains [image] image_height image_width max_freq
      duration silence us fuel).2 =
      List.replicate (image_height * image_width) [] := by
  have hsum : image.sum = 0 := List.sum_eq_zero hz
  have hrate : ∀ j, ((image.map (fun p => p / image.sum * max_freq)).getD j 0) = 0 := by
    intro j
    by_cases hj : j < (image.map (fun p => p / image.sum * max_freq)).length
    · rw [List.getD_eq_getElem _ _ hj, List.getElem_map]
      simp [hsum]
    · rw [List.getD_eq_default _ _ (le_of_not_lt hj)]
  simp only [image_to_poisson_trains, if_pos hmf]
  refine List.eq_replicate_iff.mpr ⟨by simp, ?_⟩
  intro b hb
  rw [List.mem_map] at hb
  obtain ⟨j, _hj, rfl⟩ := hb
  rw [List.flatten_eq_nil_iff]
  intro l hl
  rw [List.mem_map] at hl
  obtain ⟨i, hi, rfl⟩ := hl
  rw [List.mem_range] at hi
  have hi1 : i = 0 := by
    simp only [List.map_cons, List.map_nil, List.length_cons, List.length_nil] at hi
    omega
  subst hi1
  have hget : ((List.map (fun row => List.map (fun p => p / row.sum * max_freq) row)
      [image]).getD 0 []).getD j 0 = 0 := by
    simpa using hrate j
  rw [hget, poisson_generator, if_neg (lt_irrefl 0)]

/-- Witness for `C8_silent_zero_sum` at a concrete all-zero image. -/
theorem C8_silent_zero_sum_witness :
    (0 : ℝ) < 100 ∧ (∀ p ∈ ([0] : List ℝ), p = 0) ∧
    (image_to_poisson_trains [[0]] 1 1 100 1000 0 (fun _ _ _ => 1 / 2)
      3).2 = List.replicate (1 * 1) [] := by
  refine ⟨by norm_num, ?_, ?_⟩
  · intro p hp
    simpa using hp
  · exact C8_silent_zero_sum [0] 1 1 100 1000 0 (fun _ _ _ => 1 / 2) 3
      (by norm_num) (fun p hp => by simpa using hp)

/-! ## Sorting invariants (claim C6) -/

theorem sortIndex_perm (ts : List ℚ) :
    List.Perm (sortIndex ts) (List.range ts.length) :=
  List.perm_insertionSort _ _

theorem sortIndex_sorted (ts : List ℚ) :
    List.Pairwise (sortKeyLe ts) (sortIndex ts) :=
  List.sorted_insertionSort _ _

theorem sortIndex_nodup (ts : List ℚ) : (sortIndex ts).Nodup :=
  ((sortIndex_perm ts).nodup_iff).mpr (List.nodup_range _)

theorem sortIndex_mem {ts : List ℚ} {i : ℕ} (h : i ∈ sortIndex ts) :
    i < ts.length :=
  List.mem_range.mp ((sortIndex_perm ts).mem_iff.mp h)

/-- The sorted index list is pairwise strictly below the lexicographic
(timestamp, original index) order: ties in the timestamp keep the original
(insertion) order strictly. -/
theorem sortIndex_pairwise_strict (ts : List ℚ) :
    (sortIndex ts).Pairwise (fun i j =>
      ts.getD i 0 < ts.getD j 0 ∨ (ts.getD i 0 = ts.getD j 0 ∧ i < j)) := by
  have h := (sortIndex_sorted ts).and (sortIndex_nodup ts)
  apply h.imp
  intro a b hab
  rcases hab with ⟨hk, hne⟩
  rcases hk with hlt | ⟨heq, hle⟩
  · exact Or.inl hlt
  · exact Or.inr ⟨heq, lt_of_le_of_ne hle hne⟩

theorem ts_getD (flat : List (ℚ × ℕ × ℤ)) (i : ℕ) :
    (flat.map (fun e => e.1)).getD i 0 = (flat.getD i (0, 0, 0)).1 := by
  induction flat generalizing i with
  | nil => simp
  | cons a l ih =>
    cases i with
    | zero => simp
    | succ i => simpa using ih i

theorem map_getD_range (l : List (ℚ × ℕ × ℤ)) :
    (List.range l.length).map (fun i => l.getD i (0, 0, 0)) = l := by
  apply List.ext_getElem
  · simp
  · intro i h1 h2
    simp only [List.getElem_map, List.getElem_range]
    exact List.getD_eq_getElem l (0, 0, 0) h2

/-- Rearranging by `sort_index` permutes the combined event list. -/
theorem sortedEvents_perm (ons offs : List (List ℚ)) (n : ℕ) :
    List.Perm (sortedEvents ons offs n) (encodeEvents ons offs n) := by
  unfold sortedEvents
  have h1 : List.Perm (sortIndex ((encodeEvents ons offs n).map (fun e => e.1)))
      (List.range (encodeEvents ons offs n).length) := by
    have := sortIndex_perm ((encodeEvents ons offs n).map (fun e => e.1))
    simpa using this
  have h2 := h1.map (fun i => (encodeEvents ons offs n).getD i (0, 0, 0))
  exact h2.trans (by rw [map_getD_range])

theorem flattenFrom_snd_ge (l : List (List ℚ)) :
    ∀ (k : ℕ) (e : ℚ × ℕ), e ∈ flattenFrom k l → k ≤ e.2 := by
  induction l with
  | nil => intro k e h; simp [flattenFrom] at h
  | cons spikes rest ih =>
    intro k e h
    rw [flattenFrom, List.mem_append] at h
    rcases h with h | h
    · rw [List.mem_map] at h
      obtain ⟨t, _, rfl⟩ := h
      exact le_refl k
    · exact le_trans (Nat.le_succ k) (ih (k + 1) e h)

/-- The flattening loop emits neuron ids in non-decreasing order. -/
theorem flattenFrom_snd_pairwise (l : List (List ℚ)) :
    ∀ k : ℕ, List.Pairwise (fun a b : ℚ × ℕ => a.2 ≤ b.2) (flattenFrom k l) := by
  induction l with
  | nil => intro k; simp [flattenFrom]
  | cons spikes rest ih =>
    intro k
    rw [flattenFrom]
    apply List.pairwise_append.mpr
    refine ⟨?_, ih (k + 1), ?_⟩
    · apply List.pairwise_map.mpr
      exact List.pairwise_iff_getElem.mpr (fun i j hi hj hij => le_refl k)
    · intro a ha b hb
      rw [List.mem_map] at ha
      obtain ⟨t, _, rfl⟩ := ha
      exact le_trans (Nat.le_succ k) (flattenFrom_snd_ge rest (k + 1) b hb)

theorem validTrains_snd_pairwise (trains : List (List ℚ)) (n : ℕ) :
    List.Pairwise (fun a b : ℚ × ℕ => a.2 ≤ b.2) (validTrains trains n) := by
  unfold validTrains
  by_cases h : trains.length = n * n
  · rw [if_pos h]
    exact flattenFrom_snd_pairwise trains 0
  · rw [if_neg h]
    exact List.Pairwise.nil

/-- `ceilMicro` is monotone on timestamps whose microsecond value fits the
unsigned 32-bit range. -/
theorem ceilMicro_mono {a b : ℚ} (h : a ≤ b) (ha : 0 ≤ ⌈a * 1000⌉)
    (hb : ⌈b * 1000⌉ < 2 ^ 32) : ceilMicro a ≤ ceilMicro b := by
  unfold ceilMicro toU32
  have hc : ⌈a * 1000⌉ ≤ ⌈b * 1000⌉ :=
    Int.ceil_le_ceil (by nlinarith)
  rw [Int.emod_eq_of_lt ha (lt_of_le_of_lt hc hb),
    Int.emod_eq_of_lt (le_trans ha hc) hb]
  exact Int.toNat_le_toNat hc

/-- Ties in the sort key keep the original insertion order strictly
(non-strict key order plus strict index order on ties). -/
theorem sortIndex_pairwise_stable (ts : List ℚ) :
    (sortIndex ts).Pairwise (fun i j =>
      ts.getD i 0 ≤ ts.getD j 0 ∧ (ts.getD i 0 = ts.getD j 0 → i < j)) := by
  apply (sortIndex_pairwise_strict ts).imp
  intro a b hab
  rcases hab with hlt | ⟨heq, hlt⟩
  · exact ⟨le_of_lt hlt, fun he => absurd he (ne_of_lt hlt)⟩
  · exact ⟨le_of_eq heq, fun _ => hlt⟩

/-- After rearranging any combined event list by `sortIndex`, the emitted
`uint32` microsecond timestamps are non-decreasing, provided every event's
ceiled microsecond timestamp fits the unsigned 32-bit range. -/
theorem sorted_ceilMicro_pairwise (flat : List (ℚ × ℕ × ℤ))
    (hbound : ∀ e ∈ flat, 0 ≤ ⌈e.1 * 1000⌉ ∧ ⌈e.1 * 1000⌉ < 2 ^ 32) :
    (((sortIndex (flat.map (fun e => e.1))).map
      (fun i => flat.getD i (0, 0, 0))).map
        (fun e => ceilMicro e.1)).Pairwise (· ≤ ·) := by
  rw [List.map_map]
  apply List.pairwise_map.mpr
  apply (sortIndex_sorted (flat.map (fun e => e.1))).imp_of_mem
  intro i j hi hj hk
  have hi' : i < flat.length := by
    have := sortIndex_mem hi
    simpa using this
  have hj' : j < flat.length := by
    have := sortIndex_mem hj
    simpa using this
  have hle : (flat.getD i (0, 0, 0)).1 ≤ (flat.getD j (0, 0, 0)).1 := by
    rw [← ts_getD, ← ts_getD]
    rcases hk with h | ⟨h, _⟩
    · exact le_of_lt h
    · exact le_of_eq h
  have hbi := hbound (flat.getD i (0, 0, 0))
    (by rw [List.getD_eq_getElem _ _ hi']; exact List.getElem_mem hi')
  have hbj := hbound (flat.getD j (0, 0, 0))
    (by rw [List.getD_eq_getElem _ _ hj']; exact List.getElem_mem hj')
  exact ceilMicro_mono hle hbi.1 hbj.2

/-- Structure of ties after the stable sort of an ON-block-then-OFF-block
event list whose blocks carry non-decreasing neuron ids: among events with
equal (millisecond) timestamps, an OFF event is never followed by an ON
event, and two equal-timestamp events of the same polarity keep neuron-id
order. -/
theorem stable_tie_structure (X Y : List (ℚ × ℕ))
    (hX : List.Pairwise (fun a b : ℚ × ℕ => a.2 ≤ b.2) X)
    (hY : List.Pairwise (fun a b : ℚ × ℕ => a.2 ≤ b.2) Y) :
    ((sortIndex ((X.map (fun e => (e.1, e.2, (0 : ℤ))) ++
        Y.map (fun e => (e.1, e.2, (-1 : ℤ)))).map (fun e => e.1))).map
      (fun i => (X.map (fun e => (e.1, e.2, (0 : ℤ))) ++
        Y.map (fun e => (e.1, e.2, (-1 : ℤ)))).getD i (0, 0, 0))).Pairwise
      (fun e f => e.1 = f.1 →
        (e.2.2 = -1 → f.2.2 = -1) ∧ (e.2.2 = f.2.2 → e.2.1 ≤ f.2.1)) := by
  set flat := X.map (fun e => (e.1, e.2, (0 : ℤ))) ++
    Y.map (fun e => (e.1, e.2, (-1 : ℤ))) with hflat
  have hlen : flat.length = X.length + Y.length := by simp [hflat]
  apply List.pairwise_map.mpr
  apply (sortIndex_pairwise_strict (flat.map (fun e => e.1))).imp_of_mem
  intro i j hi hj hk
  have hi' : i < flat.length := by
    have := sortIndex_mem hi
    simpa using this
  have hj' : j < flat.length := by
    have := sortIndex_mem hj
    simpa using this
  rw [List.getD_eq_getElem _ _ hi', List.getD_eq_getElem _ _ hj']
  intro heq
  have hij : i < j := by
    rcases hk with hlt | ⟨_, h⟩
    · exfalso
      rw [ts_getD, ts_getD, List.getD_eq_getElem _ _ hi',
        List.getD_eq_getElem _ _ hj', heq] at hlt
      exact lt_irrefl _ hlt
    · exact h
  by_cases hio : i < X.length
  · have hgi : flat[i] = ((X[i]).1, (X[i]).2, (0 : ℤ)) := by
      rw [List.getElem_of_eq hflat hi',
        List.getElem_append_left (by simpa using hio)]
      simp
    by_cases hjo : j < X.length
    · have hgj : flat[j] = ((X[j]).1, (X[j]).2, (0 : ℤ)) := by
        rw [List.getElem_of_eq hflat hj',
          List.getElem_append_left (by simpa using hjo)]
        simp
      rw [hgi, hgj]
      refine ⟨fun hcon => absurd hcon (by norm_num), fun _ => ?_⟩
      exact (List.pairwise_iff_getElem.mp hX) i j hio hjo hij
    · have hjo' : X.length ≤ j := le_of_not_lt hjo
      have hjy : j - X.length < Y.length := by omega
      have hgj : flat[j] = ((Y[j - X.length]).1, (Y[j - X.length]).2, (-1 : ℤ)) := by
        rw [List.getElem_of_eq hflat hj',
          List.getElem_append_right (by simpa using hjo')]
        simp
      rw [hgi, hgj]
      exact ⟨fun hcon => absurd hcon (by norm_num), fun hpol => absurd hpol (by norm_num)⟩
  · have hio' : X.length ≤ i := le_of_not_lt hio
    have hjo' : X.length ≤ j := le_trans hio' (le_of_lt hij)
    have hiy : i - X.length < Y.length := by omega
    have hjy : j - X.length < Y.length := by omega
    have hgi : flat[i] = ((Y[i - X.length]).1, (Y[i - X.length]).2, (-1 : ℤ)) := by
      rw [List.getElem_of_eq hflat hi',
        List.getElem_append_right (by simpa using hio')]
      simp
    have hgj : flat[j] = ((Y[j - X.length]).1, (Y[j - X.length]).2, (-1 : ℤ)) := by
      rw [List.getElem_of_eq hflat hj',
        List.getElem_append_right (by simpa using hjo')]
      simp
    rw [hgi, hgj]
    refine ⟨fun _ => rfl, fun _ => ?_⟩
    exact (List.pairwise_iff_getElem.mp hY) (i - X.length) (j - X.length) hiy hjy
      (by omega)

/-- Claim C6: the encoder orders its output by a single global stable sort on
ascending timestamp over the concatenation of all ON events followed by all
OFF events.  Concretely: (a) the emitted `AllTs` microsecond timestamps are
non-decreasing (provided every event's ceiled microsecond value fits the
unsigned 32-bit range — the code performs no overflow check); (b) the
emitted sequence is a permutation of the ON++OFF concatenation; (c) the sort
index orders the (millisecond) sort keys non-decreasingly and keeps
equal-key ties in insertion order; (d) consequently, among emitted events
with equal sort-key timestamps, no OFF event precedes an ON event, and two
equal-timestamp events of one polarity appear in neuron-id order. -/
theorem C6_stable_sort (ons offs : List (List ℚ)) (n : ℕ)
    (hbound : ∀ e ∈ encodeEvents ons offs n,
      0 ≤ ⌈e.1 * 1000⌉ ∧ ⌈e.1 * 1000⌉ < 2 ^ 32) :
    ((sortedEvents ons offs n).map (fun e => ceilMicro e.1)).Pairwise (· ≤ ·) ∧
    List.Perm (sortedEvents ons offs n) (encodeEvents ons offs n) ∧
    (sortIndex ((encodeEvents ons offs n).map (fun e => e.1))).Pairwise
      (fun i j =>
        ((encodeEvents ons offs n).map (fun e => e.1)).getD i 0 ≤
          ((encodeEvents ons offs n).map (fun e => e.1)).getD j 0 ∧
        (((encodeEvents ons offs n).map (fun e => e.1)).getD i 0 =
            ((encodeEvents ons offs n).map (fun e => e.1)).getD j 0 → i < j)) ∧
    (sortedEvents ons offs n).Pairwise (fun e f => e.1 = f.1 →
      (e.2.2 = -1 → f.2.2 = -1) ∧ (e.2.2 = f.2.2 → e.2.1 ≤ f.2.1)) := by
  refine ⟨?_, sortedEvents_perm ons offs n, sortIndex_pairwise_stable _, ?_⟩
  · exact sorted_ceilMicro_pairwise (encodeEvents ons offs n) hbound
  · exact stable_tie_structure (validTrains ons n) (validTrains offs n)
      (validTrains_snd_pairwise ons n) (validTrains_snd_pairwise offs n)

/-- Witness for `C6_stable_sort` at a concrete pair of one-neuron train
sets. -/
theorem C6_stable_sort_witness :
    (∀ e ∈ encodeEvents [[1 / 2]] [[1 / 4]] 1,
      0 ≤ ⌈e.1 * 1000⌉ ∧ ⌈e.1 * 1000⌉ < 2 ^ 32) ∧
    List.Perm (sortedEvents [[1 / 2]] [[1 / 4]] 1)
      (encodeEvents [[1 / 2]] [[1 / 4]] 1) := by
  have hb : ∀ e ∈ encodeEvents [[1 / 2]] [[1 / 4]] 1,
      0 ≤ ⌈e.1 * 1000⌉ ∧ ⌈e.1 * 1000⌉ < 2 ^ 32 := by
    intro e he
    simp [encodeEvents, validTrains, flattenTrains, flattenFrom] at he
    rcases he with rfl | rfl
    · constructor <;> norm_num
    · constructor <;> norm_num
  exact ⟨hb, (C6_stable_sort [[1 / 2]] [[1 / 4]] 1 hb).2.1⟩

/-! ## Round-trip (claim C1) -/

theorem count_flatMap_filter_key {α : Type} [DecidableEq α] (l : List α)
    (key : α → ℕ) (a : α) :
    ∀ N : ℕ, ((List.range N).flatMap (fun i =>
        l.filter (fun x => decide (key x = i)))).count a =
      if key a < N then l.count a else 0 := by
  intro N
  induction N with
  | zero => simp
  | succ N ih =>
    rw [List.range_succ, List.flatMap_append, List.count_append, ih]
    simp only [List.flatMap_cons, List.flatMap_nil, List.append_nil]
    by_cases hk : key a = N
    · rw [List.count_filter (by simpa using hk)]
      rw [if_neg (by omega), if_pos (by omega)]
      simp
    · have hz : (l.filter (fun x => decide (key x = N))).count a = 0 := by
        apply List.count_eq_zero_of_not_mem
        intro hmem
        have h2 := (List.mem_filter.mp hmem).2
        simp only [decide_eq_true_eq] at h2
        exact hk h2
      rw [hz]
      by_cases hlt : key a < N
      · rw [if_pos hlt, if_pos (by omega)]
        simp
      · rw [if_neg hlt, if_neg (by omega)]

/-- Collecting, for every key value `i < N` in turn, the elements whose key is
`i` (the decoder's grouping pattern, re-flattened) permutes the original
list, provided all keys are below `N`. -/
theorem partition_perm {α : Type} [DecidableEq α] (l : List α) (key : α → ℕ)
    (N : ℕ) (h : ∀ x ∈ l, key x < N) :
    List.Perm ((List.range N).flatMap (fun i =>
      l.filter (fun x => decide (key x = i)))) l := by
  apply List.perm_iff_count.mpr
  intro a
  rw [count_flatMap_filter_key l key a N]
  by_cases hmem : a ∈ l
  · rw [if_pos (h a hmem)]
  · rw [List.count_eq_zero_of_not_mem hmem]
    split <;> simp [List.count_eq_zero_of_not_mem hmem]

theorem flattenFrom_map_range (F : ℕ → List ℚ) :
    ∀ (m s : ℕ), flattenFrom s ((List.range' s m).map F) =
      (List.range' s m).flatMap (fun i => (F i).map (fun t => (t, i))) := by
  intro m
  induction m with
  | zero => intro s; simp [flattenFrom]
  | succ m ih =>
    intro s
    rw [List.range'_succ]
    simp only [List.map_cons, List.flatMap_cons]
    rw [flattenFrom, ih (s + 1)]

/-- Decoding then re-encoding a microsecond timestamp is the identity on the
u32 range: the exact rational `t / 1000` multiplied back by `1000` has
ceiling `t`. -/
theorem ceilMicro_tsMs (t : ℕ) (h : t < 2 ^ 32) : ceilMicro (tsMs t) = t := by
  unfold ceilMicro tsMs toU32
  rw [div_mul_cancel₀ _ (by norm_num : (1000 : ℚ) ≠ 0), Int.ceil_natCast]
  rw [Int.emod_eq_of_lt (by positivity) (by exact_mod_cast h)]
  simp

theorem polBit_lt_two (a : ℕ) : polBit a < 2 := by
  unfold polBit
  rw [Nat.and_one_is_mod]
  exact Nat.mod_lt a (by norm_num)

/-- Flattening one polarity's decoded SpikeTrainSet back into tagged events
permutes the events of that polarity, each carrying its decoded neuron id
and millisecond timestamp. -/
theorem decode_flatten_perm (events : List (ℕ × ℕ)) (n b : ℕ) (z : ℤ)
    (hnid : ∀ e ∈ events, neuronId n e.1 < n * n) :
    List.Perm
      ((flattenTrains ((List.range (n * n)).map (fun i =>
        (events.filter (fun e =>
          decide (neuronId n e.1 = i ∧ polBit e.1 = b))).map
            (fun e => tsMs e.2)))).map (fun e => (e.1, e.2, z)))
      ((events.filter (fun e => decide (polBit e.1 = b))).map
        (fun e => (tsMs e.2, neuronId n e.1, z))) := by
  rw [flattenTrains, List.range_eq_range', flattenFrom_map_range,
    List.map_flatMap]
  have hstep : ∀ i ∈ List.range' 0 (n * n),
      ((((events.filter (fun e =>
        decide (neuronId n e.1 = i ∧ polBit e.1 = b))).map
          (fun e => tsMs e.2)).map (fun t => (t, i))).map
            (fun e => (e.1, e.2, z))) =
      ((events.filter (fun e => decide (polBit e.1 = b))).filter
        (fun e => decide (neuronId n e.1 = i))).map
          (fun e => (tsMs e.2, neuronId n e.1, z)) := by
    intro i _
    have h1 : events.filter (fun e =>
        decide (neuronId n e.1 = i ∧ polBit e.1 = b)) =
        (events.filter (fun e => decide (polBit e.1 = b))).filter
          (fun e => decide (neuronId n e.1 = i)) := by
      rw [List.filter_filter]
      apply List.filter_congr
      intro e _
      simp [Bool.decide_and]
    rw [List.map_map, List.map_map, h1]
    apply List.map_congr_left
    intro e he
    have h2 := (List.mem_filter.mp he).2
    simp only [decide_eq_true_eq] at h2
    simp [Function.comp, h2]
  rw [List.flatMap_congr hstep, ← List.map_flatMap, ← List.range_eq_range']
  apply List.Perm.map
  apply partition_perm
  intro x hx
  exact hnid x (List.mem_of_mem_filter hx)

/-- Encoding the two SpikeTrainSets produced by decoding permutes the
original events, with each event carrying its exact millisecond timestamp,
decoded neuron id, and the encoder's polarity tag (0 for ON, -1 for OFF). -/
theorem encode_decode_perm (events : List (ℕ × ℕ)) (n : ℕ)
    (hnid : ∀ e ∈ events, neuronId n e.1 < n * n) :
    List.Perm
      (encodeEvents (aerfile_to_spike events n).1
        (aerfile_to_spike events n).2 n)
      (events.map (fun e => (tsMs e.2, neuronId n e.1,
        if polBit e.1 = 0 then (0 : ℤ) else -1))) := by
  simp only [aerfile_to_spike]
  rw [encodeEvents, validTrains, validTrains, if_pos (by simp),
    if_pos (by simp)]
  refine ((decode_flatten_perm events n 0 0 hnid).append
    (decode_flatten_perm events n 1 (-1) hnid)).trans ?_
  have e0 : (events.filter (fun e => decide (polBit e.1 = 0))).map
      (fun e => (tsMs e.2, neuronId n e.1, (0 : ℤ))) =
      (events.filter (fun e => decide (polBit e.1 = 0))).map
      (fun e => (tsMs e.2, neuronId n e.1,
        if polBit e.1 = 0 then (0 : ℤ) else -1)) := by
    apply List.map_congr_left
    intro e he
    have h2 := (List.mem_filter.mp he).2
    simp only [decide_eq_true_eq] at h2
    rw [if_pos h2]
  have e1 : (events.filter (fun e => decide (polBit e.1 = 1))).map
      (fun e => (tsMs e.2, neuronId n e.1, (-1 : ℤ))) =
      (events.filter (fun e => decide (polBit e.1 = 1))).map
      (fun e => (tsMs e.2, neuronId n e.1,
        if polBit e.1 = 0 then (0 : ℤ) else -1)) := by
    apply List.map_congr_left
    intro e he
    have h2 := (List.mem_filter.mp he).2
    simp only [decide_eq_true_eq] at h2
    rw [if_neg (by rw [h2]; norm_num)]
  rw [e0, e1, ← List.map_append]
  apply List.Perm.map
  have hq : events.filter (fun e => decide (polBit e.1 = 1)) =
      events.filter (fun e => !(decide (polBit e.1 = 0))) := by
    apply List.filter_congr
    intro e _
    have hp : polBit e.1 = 0 ∨ polBit e.1 = 1 := by
      have := polBit_lt_two e.1
      omega
    rcases hp with h | h <;> simp [h]
  rw [hq]
  exact List.filter_append_perm _ events

/-- Claim C1: for a valid buffer (all timestamps in the u32 range, all
decoded neuron ids below `image_size * image_size`), re-encoding the two
SpikeTrainSets produced by decoding — with `addr_scale = 128` — emits
exactly the multiset of (timestamp-µs, neuron id, polarity) triples of the
original buffer (polarity as the encoder represents it: 0 = ON, -1 = OFF).
In the exact-rational model the round-trip timestamps are recovered
exactly, so each re-encoded microsecond timestamp satisfies the claim's
tolerance `abs(decoded_ms * 1000 - original_us) ≤ 1` with slack to spare. -/
theorem C1_roundtrip (events : List (ℕ × ℕ)) (n : ℕ) (now : String)
    (hts : ∀ e ∈ events, e.2 < 2 ^ 32)
    (hnid : ∀ e ∈ events, neuronId n e.1 < n * n) :
    List.Perm
      (emittedTriples (spike_to_aerfile (aerfile_to_spike events n).1
        (aerfile_to_spike events n).2 n 128 now))
      (events.map (fun e => (e.2, neuronId n e.1,
        if polBit e.1 = 0 then (0 : ℤ) else -1))) := by
  have hperm := encode_decode_perm events n hnid
  by_cases hne : encodeEvents (aerfile_to_spike events n).1
      (aerfile_to_spike events n).2 n = []
  · have hmap : events.map (fun e => (tsMs e.2, neuronId n e.1,
        if polBit e.1 = 0 then (0 : ℤ) else -1)) = [] := by
      rw [hne] at hperm
      exact hperm.symm.eq_nil
    have hev : events = [] := List.map_eq_nil_iff.mp hmap
    subst hev
    have hret : (spike_to_aerfile (aerfile_to_spike [] n).1
        (aerfile_to_spike [] n).2 n 128 now).ret = none := by
      simp [spike_to_aerfile, hne]
    simp [emittedTriples, hret]
  · have hlen : 0 < (encodeEvents (aerfile_to_spike events n).1
        (aerfile_to_spike events n).2 n).length := List.length_pos.mpr hne
    have hemit : emittedTriples (spike_to_aerfile (aerfile_to_spike events n).1
        (aerfile_to_spike events n).2 n 128 now) =
        (sortedEvents (aerfile_to_spike events n).1
          (aerfile_to_spike events n).2 n).map
            (fun e => (ceilMicro e.1, e.2.1, e.2.2)) := by
      simp only [spike_to_aerfile, if_pos hlen, emittedTriples]
      rw [List.zip_map', List.zip_map']
    rw [hemit]
    refine ((sortedEvents_perm _ _ n).map
      (fun e => (ceilMicro e.1, e.2.1, e.2.2))).trans ?_
    refine (hperm.map (fun e => (ceilMicro e.1, e.2.1, e.2.2))).trans ?_
    rw [List.map_map]
    have h3 : events.map ((fun e : ℚ × ℕ × ℤ => (ceilMicro e.1, e.2.1, e.2.2)) ∘
        (fun e : ℕ × ℕ => (tsMs e.2, neuronId n e.1,
          if polBit e.1 = 0 then (0 : ℤ) else -1))) =
        events.map (fun e => (e.2, neuronId n e.1,
          if polBit e.1 = 0 then (0 : ℤ) else -1)) := by
      apply List.map_congr_left
      intro e he
      simp [Function.comp, ceilMicro_tsMs e.2 (hts e he)]
    rw [h3]

/-- Witness for `C1_roundtrip` at a one-event buffer: address 2 (ON event of
neuron 1 at image size 2), timestamp 1000 µs. -/
theorem C1_roundtrip_witness :
    (∀ e ∈ [((2 : ℕ), (1000 : ℕ))], e.2 < 2 ^ 32) ∧
    (∀ e ∈ [((2 : ℕ), (1000 : ℕ))], neuronId 2 e.1 < 2 * 2) ∧
    List.Perm
      (emittedTriples (spike_to_aerfile (aerfile_to_spike [(2, 1000)] 2).1
        (aerfile_to_spike [(2, 1000)] 2).2 2 128 "t"))
      ([((2 : ℕ), (1000 : ℕ))].map (fun e => (e.2, neuronId 2 e.1,
        if polBit e.1 = 0 then (0 : ℤ) else -1))) :=
  ⟨by decide, by decide, C1_roundtrip [(2, 1000)] 2 "t" (by decide) (by decide)⟩
